import Mathlib

/-!
# ModJS `js.cpp`: hot-script cache, diagnostics formatter and `require`

A shallow embedding of `src/js.cpp`.

* The V8 engine is a parameter: compiling and running are functions of an
  explicit engine state, returning a `MaybeLocal` (an `Option`) together with
  what the enclosing `v8::TryCatch` holds afterwards.
* The thread-local statics (`hotscript`, `stackpath`) are fields of explicit
  state records that every entry point takes and returns. A running script
  is taken not to call back into `javascript_run` on its own thread.
* A C++ `throw` of `javascript_run` is the `Except.error` case of its result.
* `std::experimental::filesystem::path` is a pathname in the generic (POSIX)
  format with the operations of the Filesystem TS as libstdc++ implements
  them; the file system itself is a parameter, and a `filesystem_error`
  thrown by one of its queries is an outcome of its own (`none` for a query,
  `threw` for `find_module`, `filesystem_error` for `RequireCallback`).
-/

set_option autoImplicit false

namespace ModJS

/-! ## Hot-script cache (`HotScript`, `javascript_run`) -/

/-- One byte of script source: an element of `rgch`. -/
abbrev BYTE := Fin 256

/-- Modelled from the spec: `sha256.h` is not among the sources; it defines
`SHA256_BLOCK_SIZE`, the length in bytes of a digest, which is 32 for SHA-256
(the spec's "fixed-length content hash"). -/
def SHA256_BLOCK_SIZE : Nat := 32

/-- The array `BYTE m_hash[SHA256_BLOCK_SIZE]`. -/
abbrev Digest := Mathlib.Vector BYTE SHA256_BLOCK_SIZE

/-- What a `v8::TryCatch` holds after an engine call: `HasCaught()`, the text
of `Exception()` as `v8::String::Utf8Value` renders it, and the text of
`StackTrace(context)` when that `MaybeLocal` is not empty. -/
structure TryCatch where
  HasCaught : Bool
  Exception : String
  StackTrace : Option String
deriving DecidableEq, Repr

/-- The values `javascript_run` throws: a `std::string` or `std::nullptr_t()`. -/
inductive Thrown where
  | message (str : String)
  | null
deriving DecidableEq, Repr

/-- The engine and the hash as the code uses them.
`sha256 rgch` is the digest left in the output buffer by
`sha256_init; sha256_update(rgch, cch); sha256_final`.
`Compile` is `v8::ScriptCompiler::Compile` and `Run` is `script->Run(context)`:
each returns its `MaybeLocal`, the state of the innermost `TryCatch`, and the
next engine state. -/
structure Engine (σ Script Value : Type) where
  sha256 : List BYTE → Digest
  Compile : σ → List BYTE → Option Script × TryCatch × σ
  Run : σ → Script → Option Value × TryCatch × σ

/-- The class `HotScript`: a persistent handle (empty or not) and the hash of
the source it was built from. -/
structure HotScript (Script : Type) where
  m_script : Option Script
  m_hash : Digest

/-- The constructor `HotScript(rgch, cch, script)`. -/
def HotScript.new {σ Script Value : Type} (E : Engine σ Script Value)
    (rgch : List BYTE) (script : Option Script) : HotScript Script :=
  { m_script := script, m_hash := E.sha256 rgch }

/-- The overload `FGetScript(const BYTE *hash, pscriptOut)`: `none` is
`false`, `some s` is `true` with `*pscriptOut = s`. -/
def HotScript.FGetScript_hash {Script : Type} (hs : HotScript Script)
    (hash : Digest) : Option Script :=
  if hs.m_hash ≠ hash then none
  else
    match hs.m_script with
    | none => none
    | some script => some script

/-- The overload `FGetScript(const char *rgch, size_t cch, pscriptOut)`. -/
def HotScript.FGetScript {σ Script Value : Type} (E : Engine σ Script Value)
    (hs : HotScript Script) (rgch : List BYTE) : Option Script :=
  let hashT := E.sha256 rgch
  hs.FGetScript_hash hashT

/-- The state one worker thread's `javascript_run` works on: the static
`hotscript` pointer (`none` is `nullptr`) and the engine state, with two
logs that the code does not keep: the sources handed to the compiler and the
scripts handed to `Run`, oldest first. -/
structure World (σ Script : Type) where
  hotscript : Option (HotScript Script)
  engine : σ
  compiled : List (List BYTE)
  ran : List Script

/-- The value of a cache lookup: the condition of line 326 is
`lookup = none`. -/
def World.lookup {σ Script Value : Type} (E : Engine σ Script Value)
    (w : World σ Script) (rgch : List BYTE) : Option Script :=
  match w.hotscript with
  | none => none
  | some hs => hs.FGetScript E rgch

/-- The formatter `prettyPrintException(trycatch)`. -/
def prettyPrintException (trycatch : TryCatch) : String :=
  let str := trycatch.Exception
  match trycatch.StackTrace with
  | some traceV => (str ++ "\n") ++ traceV
  | none => str

/-- The overload `javascript_run(context, script)`. -/
def javascript_run_script {σ Script Value : Type} (E : Engine σ Script Value)
    (w : World σ Script) (script : Script) : Except Thrown Value × World σ Script :=
  match E.Run w.engine script with
  | (resultMaybe, trycatch, e) =>
    let w1 : World σ Script := { w with engine := e, ran := w.ran ++ [script] }
    match resultMaybe with
    | none =>
      if trycatch.HasCaught then (.error (.message (prettyPrintException trycatch)), w1)
      else (.error .null, w1)
    | some result => (.ok result, w1)

/-- The overload `javascript_run(context, rgch, cch)`. -/
def javascript_run {σ Script Value : Type} (E : Engine σ Script Value)
    (w : World σ Script) (rgch : List BYTE) : Except Thrown Value × World σ Script :=
  match w.lookup E rgch with
  | some script => javascript_run_script E w script
  | none =>
    match E.Compile w.engine rgch with
    | (scriptMaybe, trycatch, e) =>
      let w1 : World σ Script := { w with engine := e, compiled := w.compiled ++ [rgch] }
      match scriptMaybe with
      | none =>
        if trycatch.HasCaught then (.error (.message (prettyPrintException trycatch)), w1)
        else (.error .null, w1)
      | some script =>
        javascript_run_script E
          { w1 with hotscript := some (HotScript.new E rgch (some script)) } script

/-- A thread's world before its first `javascript_run`: `hotscript == nullptr`. -/
def World.fresh {σ Script : Type} (e : σ) : World σ Script :=
  { hotscript := none, engine := e, compiled := [], ran := [] }

/-- The world after a sequence of `javascript_run` calls, oldest first. -/
def runs {σ Script Value : Type} (E : Engine σ Script Value) :
    World σ Script → List (List BYTE) → World σ Script
  | w, [] => w
  | w, rgch :: rest => runs E (javascript_run E w rgch).2 rest

/-- The invariant of the cache slot: empty, or a non-empty handle that some
engine state produced by compiling a source whose digest is the stored one. -/
def SlotValid {σ Script Value : Type} (E : Engine σ Script Value)
    (slot : Option (HotScript Script)) : Prop :=
  slot = none ∨
    ∃ (src : List BYTE) (script : Script) (e : σ),
      (E.Compile e src).1 = some script ∧
        slot = some { m_script := some script, m_hash := E.sha256 src }


/-! ## Pathnames (`std::experimental::filesystem::path`) -/

/-- A path of the Filesystem TS: its pathname, in the generic format with
`/` as the directory separator, read as libstdc++ reads it on POSIX. -/
structure path where
  pathname : List Char
deriving DecidableEq, Repr

namespace path

/-- The constructor `path(source)` from a character string. -/
def ofString (s : String) : path := ⟨s.toList⟩

/-- A pathname cut at every separator; a piece is empty where two separators
meet and at a leading or trailing separator. -/
def pieces : List Char → List (List Char)
  | [] => [[]]
  | c :: cs =>
    if c = '/' then [] :: pieces cs
    else
      match pieces cs with
      | [] => [[c]]
      | w :: ws => (c :: w) :: ws

/-- The root name and what follows it. A pathname has a root name when it
starts with exactly two separators: the root name is the whole of `//`, or
the two separators and the characters up to the next separator. Three or
more leading separators are a root directory, and one separator is. -/
def split_root_name (s : List Char) : List Char × List Char :=
  match s with
  | a :: b :: c :: r =>
    if a = '/' ∧ b = '/' ∧ c ≠ '/' then
      (a :: b :: c :: r.takeWhile (fun x => x ≠ '/'), r.dropWhile (fun x => x ≠ '/'))
    else ([], s)
  | [a, b] => if a = '/' ∧ b = '/' then (s, []) else ([], s)
  | _ => ([], s)

/-- The file names in the part `s` of a pathname after its root name. -/
def names_of (s : List Char) : List (List Char) :=
  (pieces s).filter (fun w => w ≠ [])

/-- The part `s` after the root name starts with a root directory. -/
def rooted (s : List Char) : Bool := s.head? = some '/'

/-- The part `s` after the root name has a separator after its last file
name. -/
def trailing (s : List Char) : Bool :=
  s.getLast? = some '/' && !(names_of s).isEmpty

/-- The elements of the part `s` after the root name: the root directory,
each file name, and a dot for a trailing separator. -/
def elements_of (s : List Char) : List (List Char) :=
  (if rooted s then [['/']] else []) ++ names_of s ++ (if trailing s then [['.']] else [])

/-- The decomposition `root_name()`. -/
def root_name (p : path) : path := ⟨(split_root_name p.pathname).1⟩

/-- The pathname after its root name. -/
def after_root_name (p : path) : List Char := (split_root_name p.pathname).2

/-- The query `has_root_name()`. -/
def has_root_name (p : path) : Bool := !(root_name p).pathname.isEmpty

/-- The query `has_root_directory()`. -/
def has_root_directory (p : path) : Bool := rooted (after_root_name p)

/-- The file names of a pathname, in order. -/
def names (p : path) : List (List Char) := names_of (after_root_name p)

/-- The elements that iteration from `begin()` to `end()` visits: the root
name, the root directory, each file name, and a dot for a trailing
separator. -/
def elements (p : path) : List (List Char) :=
  (if p.has_root_name then [(root_name p).pathname] else []) ++
    elements_of (after_root_name p)

/-- The query `empty()`. -/
def empty (p : path) : Bool := p.pathname.isEmpty

/-- The query `is_absolute()`: on POSIX, a root directory. -/
def is_absolute (p : path) : Bool := p.has_root_directory

/-- The query `is_relative()`. -/
def is_relative (p : path) : Bool := !p.is_absolute

/-- The modifier `append(source)`, which is `operator/=`: a separator is
added first unless the pathname is empty or ends in one, or `source` is empty
or starts with one. -/
def append (p : path) (source : List Char) : path :=
  if p.pathname ≠ [] ∧ p.pathname.getLast? ≠ some '/' ∧ source ≠ [] ∧ source.head? ≠ some '/'
  then ⟨p.pathname ++ '/' :: source⟩
  else ⟨p.pathname ++ source⟩

/-- The operator `lhs / rhs`, which is `path(lhs) /= rhs`. -/
def div (lhs rhs : path) : path := lhs.append rhs.pathname

/-- The modifier `concat(x)`, which is `operator+=`: no separator. -/
def concat (p : path) (x : List Char) : path := ⟨p.pathname ++ x⟩

/-- The decomposition `filename()`: the last element, or the empty path. -/
def filename (p : path) : path :=
  match (elements p).getLast? with
  | none => ⟨[]⟩
  | some e => ⟨e⟩

/-- The decomposition `extension()`: the part of `filename()` from its
rightmost period on, when it has one and is neither dot nor dot-dot. -/
def extension (p : path) : path :=
  let f := (filename p).pathname
  if f.contains '.' ∧ f ≠ ['.'] ∧ f ≠ ['.', '.'] then
    ⟨'.' :: (f.reverse.takeWhile (fun c => c ≠ '.')).reverse⟩
  else ⟨[]⟩

/-- The decomposition `parent_path()`: empty for fewer than two elements,
else the elements but the last joined by `operator/=`. -/
def parent_path (p : path) : path :=
  if (elements p).length < 2 then ⟨[]⟩
  else (elements p).dropLast.foldl append ⟨[]⟩

/-- The modifier `remove_filename()` of the Filesystem TS: it drops the last
element, as if `*this = parent_path()` (libstdc++ keeps the separator before
the dropped element, so its result differs from this by a trailing separator
only, which `operator/=` absorbs). It changes the path it is called on; the
value here is the new content of that object, which the caller stores
back. -/
def remove_filename (p : path) : path := p.parent_path

/-- The comparison `lhs == rhs`: element by element. -/
def eq (lhs rhs : path) : Bool := elements lhs = elements rhs

/-- The sum of the lengths of a list of names. -/
def sumLen (l : List (List Char)) : Nat := (l.map List.length).sum

/-- A pathname that starts with one separator and not two: an absolute path
without a root name. -/
def plain_absolute (s : List Char) : Bool :=
  s.head? = some '/' && s.tail.head? != some '/'

end path

/-! ## The file system and `find_module` -/

/-- What lines 156-172 get from a `std::ifstream` opened on a path with
`std::ios::binary | std::ios::ate`. -/
inductive Stream where
  /-- the stream is not open: `tellg()` is `-1` -/
  | cannot_open
  /-- the stream is open and `tellg()` gives a size for which
  `std::vector<char> buffer(size)` throws (`std::length_error` or
  `std::bad_alloc`), as for a directory whose end is beyond every size -/
  | too_large
  /-- the buffer is made and `file.read` fails -/
  | read_fails
  /-- the file is read in full -/
  | content (buffer : List BYTE)
deriving DecidableEq, Repr

/-- The file system as the code reads it. `exists_` and `is_directory` are
the throwing overloads `exists(p)` and `is_directory(p)` of the Filesystem
TS, and `current_path` is `current_path()`: `none` stands for a
`filesystem_error` thrown (the status of the path cannot be read: a name too
long, a directory that may not be searched), `some b` for the answer `b`.
`ifstream` is what lines 156-172 get from the file at a path. -/
structure FileSystem where
  exists_ : path → Option Bool
  is_directory : path → Option Bool
  current_path : Option path
  ifstream : path → Stream

/-- How a call of `find_module` ends: at a `return trypath;`, at the closing
brace (the function has no `return` there, so it gives its caller no value),
with a `filesystem_error` thrown by one of its probes, or, in this model
only, with the loop's step budget used up. -/
inductive Found where
  | returned (trypath : path)
  | no_return
  | threw
  | out_of_fuel
deriving DecidableEq, Repr

/-- The name of the package directory. -/
def node_modules : path := path.ofString "node_modules"

/-- The name of a package's entry file. -/
def index_js : path := path.ofString "index.js"

/-- The suffix of a source file. -/
def dot_js : List Char := ".js".toList

/-- The `do ... while (!wdir.empty())` loop of `find_module` (lines 106-119),
one iteration per unit of fuel. -/
def find_module.ascend (fsys : FileSystem) (name : path) : Nat → path → Found
  | 0, _ => .out_of_fuel
  | fuel + 1, wdir =>
    let node_dir := wdir.div node_modules
    let continue_ (_ : Unit) : Found :=
      let wdir1 := wdir.parent_path
      if wdir1.empty then .no_return else find_module.ascend fsys name fuel wdir1
    match fsys.is_directory node_dir with
    | none => .threw
    | some false => continue_ ()
    | some true =>
      let trypath := (node_dir.div name).concat dot_js
      match fsys.exists_ trypath with
      | none => .threw
      | some true => .returned trypath
      | some false =>
        let trypath1 := (node_dir.div name).div index_js
        match fsys.exists_ trypath1 with
        | none => .threw
        | some true => .returned trypath1
        | some false => continue_ ()

/-- The function `find_module(name)`. The loop gets one step more than the
working directory has characters. -/
def find_module (fsys : FileSystem) (name : path) : Found :=
  let trypath := name.append dot_js
  match fsys.exists_ trypath with
  | none => .threw
  | some true => .returned trypath
  | some false =>
    match fsys.current_path with
    | none => .threw
    | some wdir => find_module.ascend fsys name (wdir.pathname.length + 1) wdir

/-- The directories of the search as the specification lists them: `wdir`
itself, then its parent, the parent of that, and so on while the parent is
not empty. -/
def ancestors : Nat → path → List path
  | 0, _ => []
  | fuel + 1, wdir =>
    wdir :: (if wdir.parent_path.empty then [] else ancestors fuel wdir.parent_path)

/-- The two package candidates at one level `d` of the ascent, in order:
`d/node_modules/<name>.js`, then `d/node_modules/<name>/index.js`. -/
def node_candidates (name d : path) : List path :=
  [((d.div node_modules).div name).concat dot_js,
   ((d.div node_modules).div name).div index_js]

/-- The package candidates as the specification lists them: the two of the
working directory, then the two of each directory above it, in that order. -/
def search_order (wdir name : path) : List path :=
  (ancestors (wdir.pathname.length + 1) wdir).flatMap (node_candidates name)

/-- The first of the candidates that exists, probing them in order; a probe
that throws ends the search with its error. -/
def first_existing (fsys : FileSystem) : List path → Found
  | [] => .no_return
  | c :: cs =>
    match fsys.exists_ c with
    | none => .threw
    | some true => .returned c
    | some false => first_existing fsys cs

/-! ## `require`: `StackPopper` and `RequireCallback` -/

/-- The constructor of `StackPopper`: `stack.push(val)`. The top of the
stack is the head of the list. -/
def StackPopper.ctor (stack : List path) (val : path) : List path := val :: stack

/-- The destructor of `StackPopper`: `m_stack.pop()`. -/
def StackPopper.dtor (stack : List path) : List path := stack.tail

/-- The exit of `RequireCallback` a call leaves by. -/
inductive RequireExit (Value : Type) where
  /-- line 126: `args.Length() != 1` -/
  | bad_arity
  /-- lines 136, 140, 147, 151 and 153: a probe of the file system threw a
  `filesystem_error`, which nothing in `RequireCallback` catches; or the
  same exception came out of a nested `require` during `Evaluate` -/
  | filesystem_error
  /-- line 167: the constructor of `buffer` threw, which nothing in
  `RequireCallback` catches; or the same exception came out of a nested
  `require` during `Evaluate` -/
  | buffer_error
  /-- line 153: `find_module` reached its closing brace, so the assignment
  reads a value that was never returned -/
  | undefined_behaviour
  /-- line 160: `tellg()` gave `-1` -/
  | file_not_found
  /-- line 170: `file.read` failed -/
  | read_failed
  /-- line 198: `CompileModule` gave an empty handle -/
  | compile_failed
  /-- line 208: `InstantiateModule` failed -/
  | instantiate_failed
  /-- line 216: setting `exports` on the global object failed -/
  | set_exports_failed
  /-- line 219: `Evaluate` gave an empty handle -/
  | evaluate_failed
  /-- lines 219-225: the module was evaluated; `exports` is the return value
  when reading it back succeeded -/
  | evaluated (exports : Option Value)
  /-- in this model only: the budget for nested loads or for the ascent is
  used up -/
  | fuel_exhausted
deriving DecidableEq, Repr

/-- The string `RequireCallback` itself hands to `isolate->ThrowException`. -/
def RequireExit.thrown {Value : Type} : RequireExit Value → Option String
  | .file_not_found => some "File not found"
  | .read_failed => some "File not found"
  | _ => none

/-- The value given to `args.GetReturnValue().Set`. -/
def RequireExit.returnValue {Value : Type} : RequireExit Value → Option Value
  | .evaluated exports => exports
  | _ => none

/-- What evaluating a module does, as far as `require` is concerned: it ends
with the `MaybeLocal` of `module->Evaluate(context)` and of reading `exports`
back, or it calls `require` with some arguments and goes on according to how
that call left. -/
inductive Behaviour (Value : Type) where
  | finish (result : Option Value) (exports : Option Value)
  | require (args : List String) (k : RequireExit Value → Behaviour Value)

/-- The engine calls of `RequireCallback`: `CompileModule`,
`InstantiateModule`, `valglob->Set(context, strExport, exports)` and
`module->Evaluate(context)`. -/
structure ModuleEngine (Module Value : Type) where
  CompileModule : List BYTE → Option Module
  InstantiateModule : Module → Option Bool
  SetExports : Module → Option Bool
  Evaluate : Module → Behaviour Value

/-- The static thread-local `stackpath` (top first), with two logs that the
code does not keep: the paths handed to `std::ifstream` and the paths whose
contents were handed to `CompileModule`, oldest first. -/
structure RequireState where
  stackpath : List path
  opened : List path
  compiled : List path
deriving DecidableEq, Repr

/-- Lines 132-150 of `RequireCallback`: the new value of `path` (`none` when
a probe threw) and the new content of `stackpath`. Both calls of
`stackpath.top().remove_filename()` act on the stack's top entry itself, and
each comes before the probe that uses its result. -/
def RequireCallback.relative (fsys : FileSystem) (stackpath : List path) (p : path) :
    Option path × List path :=
  match stackpath with
  | [] => (some p, [])
  | top :: rest =>
    if p.is_relative then
      let top1 := top.remove_filename
      let trypath := top1.div p
      match fsys.exists_ trypath with
      | none => (none, top1 :: rest)
      | some true => (some trypath, top1 :: rest)
      | some false =>
        let trypath2 := trypath.concat dot_js
        match fsys.exists_ trypath2 with
        | none => (none, top1 :: rest)
        | some true => (some trypath2, top1 :: rest)
        | some false =>
          let top2 := top1.remove_filename
          let trypath3 := (top2.div p).div index_js
          match fsys.exists_ trypath3 with
          | none => (none, top2 :: rest)
          | some true => (some trypath3, top2 :: rest)
          | some false => (some p, top2 :: rest)
    else (some p, top :: rest)

/-- The condition of line 151 under which `find_module` is called; `none`
when `exists(path)` threw. -/
def RequireCallback.is_bare (fsys : FileSystem) (p : path) : Option Bool :=
  match fsys.exists_ p with
  | none => none
  | some e => some (!e && p.extension.empty && p.filename.eq p)

/-- Evaluation of a module whose calls of `require` are served by `req`.
The result is an error when a nested `require` left by a C++ exception: the
exception passes through `Evaluate` and the evaluation is abandoned. -/
def runBehaviour {Value : Type}
    (req : RequireState → List String → RequireExit Value × RequireState) :
    Behaviour Value → RequireState →
      Except (RequireExit Value) (Option Value × Option Value) × RequireState
  | .finish result exports, st => (.ok (result, exports), st)
  | .require args k, st =>
    match req st args with
    | (.filesystem_error, st1) => (.error .filesystem_error, st1)
    | (.buffer_error, st1) => (.error .buffer_error, st1)
    | (r, st1) => runBehaviour req (k r) st1

/-- The body of `RequireCallback`; `nested` serves the calls of `require`
that the loaded module makes while it is evaluated (`none`: the budget for
nested loads is used up). The destructor of `popper` runs on every way out
of its scope, an exception included. -/
def RequireCallback.body {Module Value : Type} (fsys : FileSystem)
    (E : ModuleEngine Module Value)
    (nested : Option (RequireState → List String → RequireExit Value × RequireState))
    (st : RequireState) (args : List String) : RequireExit Value × RequireState :=
  match args with
  | [arg] =>
    match RequireCallback.relative fsys st.stackpath (path.ofString arg) with
    | (none, stack1) => (.filesystem_error, { st with stackpath := stack1 })
    | (some path1, stack1) =>
      let st1 : RequireState := { st with stackpath := stack1 }
      match RequireCallback.is_bare fsys path1 with
      | none => (.filesystem_error, st1)
      | some bare =>
        let found : Found := if bare then find_module fsys path1 else .returned path1
        match found with
        | .threw => (.filesystem_error, st1)
        | .no_return => (.undefined_behaviour, st1)
        | .out_of_fuel => (.fuel_exhausted, st1)
        | .returned path2 =>
          let st2 : RequireState := { st1 with opened := st1.opened ++ [path2] }
          -- line 165: `popper` pushes `path2` once the stream is known to be open
          let pushed := StackPopper.ctor st2.stackpath path2
          match fsys.ifstream path2 with
          | .cannot_open => (.file_not_found, st2)
          | .too_large => (.buffer_error, { st2 with stackpath := StackPopper.dtor pushed })
          | .read_fails => (.read_failed, { st2 with stackpath := StackPopper.dtor pushed })
          | .content buffer =>
            let st3 : RequireState := { st2 with compiled := st2.compiled ++ [path2] }
            match E.CompileModule buffer with
            | none => (.compile_failed, { st3 with stackpath := StackPopper.dtor pushed })
            | some module =>
              if E.InstantiateModule module ≠ some true then
                (.instantiate_failed, { st3 with stackpath := StackPopper.dtor pushed })
              else if E.SetExports module ≠ some true then
                (.set_exports_failed, { st3 with stackpath := StackPopper.dtor pushed })
              else
                match nested with
                | none =>
                  (.fuel_exhausted, { st3 with stackpath := StackPopper.dtor pushed })
                | some req =>
                  match runBehaviour req (E.Evaluate module)
                      { st3 with stackpath := pushed } with
                  | (outcome, st4) =>
                    let st5 : RequireState :=
                      { st4 with stackpath := StackPopper.dtor st4.stackpath }
                    match outcome with
                    | .error e => (e, st5)
                    | .ok (none, _) => (.evaluate_failed, st5)
                    | .ok (some _, exports) => (.evaluated exports, st5)
  | _ => (.bad_arity, st)

/-- The callback `RequireCallback(args)`, with a budget for the depth of
nested loads: a module that requires itself would recurse without end. -/
def RequireCallback {Module Value : Type} (fsys : FileSystem)
    (E : ModuleEngine Module Value) :
    Nat → RequireState → List String → RequireExit Value × RequireState
  | 0 => RequireCallback.body fsys E none
  | depth + 1 => RequireCallback.body fsys E (some (RequireCallback fsys E depth))

/-- The three candidates the relative branch is documented to try for a
specifier `p` while `top` is loading, all in the directory of `top`. -/
def documented_candidates (top p : path) : List path :=
  [top.parent_path.div p, (top.parent_path.div p).concat dot_js,
   (top.parent_path.div p).div index_js]

/-- The three candidates of lines 135, 140 and 146, each built from the stack
entry as the calls of `remove_filename()` before it have left it. -/
def tried_candidates (top p : path) : List path :=
  [top.remove_filename.div p, (top.remove_filename.div p).concat dot_js,
   (top.remove_filename.remove_filename.div p).div index_js]

/-! ## A concrete file system and concrete engines for the worked examples -/

/-- The names from the root that a pathname denotes to the operating system
when it is read in the working directory `cwd`: leading separators, however
many, are the root; a dot is dropped and a dot-dot steps up (there are no
symbolic links). -/
def resolveNames (cwd p : path) : List (List Char) :=
  (path.names_of p.pathname).foldl
    (fun acc n =>
      if n = ['.'] then acc else if n = ['.', '.'] then acc.dropLast else acc ++ [n])
    (if path.rooted p.pathname then [] else path.names_of cwd.pathname)

/-- The longest file name the example file systems accept: `NAME_MAX` of
Linux. -/
def NAME_MAX : Nat := 255

/-- The walk of the example file systems from the root along `todo`, `done`
being the names already passed: a name longer than `NAME_MAX` is an error
(`none`), a name that is not `present` ends the walk with `some false`. -/
def walk (present : List (List Char) → Bool) (done : List (List Char)) :
    List (List Char) → Option Bool
  | [] => some true
  | n :: todo =>
    if NAME_MAX < n.length then none
    else if present (done ++ [n]) then walk present (done ++ [n]) todo
    else some false

/-- A file system that holds exactly the listed regular files (absolute
pathnames, each with its content), the directories above them and the
directories down to the working directory. The status of a path with a name
longer than `NAME_MAX` on the way cannot be read; a stream on a directory
does not open. -/
def FileSystem.ofFiles (cwd : String) (files : List (String × List BYTE)) : FileSystem :=
  let wd := path.ofString cwd
  let table := files.map fun f => (path.names_of f.1.toList, f.2)
  let present : List (List Char) → Bool := fun ns =>
    ns.isPrefixOf (path.names_of wd.pathname) || table.any fun f => ns.isPrefixOf f.1
  let directory : List (List Char) → Bool := fun ns =>
    ns.isPrefixOf (path.names_of wd.pathname) || table.any fun f => ns.isPrefixOf f.1 && ns != f.1
  { exists_ := fun p =>
      if p.empty then some false else walk present [] (resolveNames wd p)
    is_directory := fun p =>
      if p.empty then some false
      else (walk present [] (resolveNames wd p)).map fun e =>
        e && directory (resolveNames wd p)
    current_path := some wd
    ifstream := fun p =>
      if p.empty then .cannot_open
      else
        match table.find? fun f => f.1 = resolveNames wd p with
        | some f => .content f.2
        | none => .cannot_open }

/-- Working directory `/x/y`; the only file is `/x/y/foo.js`. -/
def fsLocalOnly : FileSystem := FileSystem.ofFiles "/x/y" [("/x/y/foo.js", [7])]

/-- Working directory `/x/y`; the only file is `/node_modules/foo/index.js`. -/
def fsRootPackage : FileSystem :=
  FileSystem.ofFiles "/x/y" [("/node_modules/foo/index.js", [7])]

/-- Working directory `/srv`; the files are `/a/dir/a.js` (content: the byte
1) and `/a/dir/b.js`. -/
def fsSiblings : FileSystem :=
  FileSystem.ofFiles "/srv" [("/a/dir/a.js", [1]), ("/a/dir/b.js", [3, 3, 3])]

/-- Working directory `/srv`; the files are `/a/dir/a.js` and
`/a/b/index.js`, one directory above the directory of `a.js`. -/
def fsUncle : FileSystem :=
  FileSystem.ofFiles "/srv" [("/a/dir/a.js", [1]), ("/a/b/index.js", [2, 2])]

/-- Working directory `/srv`; no file at all. -/
def fsEmpty : FileSystem := FileSystem.ofFiles "/srv" []

/-- Working directory `/srv`; the files are `/a/dir/a.js` and `/srv/m.js`,
the second in the working directory. -/
def fsScriptInCwd : FileSystem :=
  FileSystem.ofFiles "/srv" [("/a/dir/a.js", [1]), ("/srv/m.js", [5])]

/-- A file name of 254 characters: with the suffix `.js` it is longer than
`NAME_MAX`, without it it is not. -/
def longName : path := ⟨List.replicate 254 'n'⟩

/-- Working directory `/x/y`; the only file is
`/x/y/node_modules/<longName>/index.js`. -/
def fsLongName : FileSystem :=
  let names := ["x".toList, "y".toList, "node_modules".toList, longName.pathname,
    "index.js".toList]
  let wd := path.ofString "/x/y"
  let present : List (List Char) → Bool := fun ns => ns.isPrefixOf names
  { exists_ := fun p =>
      if p.empty then some false else walk present [] (resolveNames wd p)
    is_directory := fun p =>
      if p.empty then some false
      else (walk present [] (resolveNames wd p)).map fun e =>
        e && resolveNames wd p != names
    current_path := some wd
    ifstream := fun p =>
      if resolveNames wd p = names then .content [7] else .cannot_open }

/-- The load stack while `/a/dir/a.js` is loading, with empty logs. -/
def loadingA : RequireState :=
  { stackpath := [path.ofString "/a/dir/a.js"], opened := [], compiled := [] }

/-- The empty load stack, with empty logs. -/
def topLevel : RequireState := { stackpath := [], opened := [], compiled := [] }

/-- A module engine for the examples: every buffer compiles to itself and
instantiates; the module whose content is the single byte 1 calls
`require("./missing")` and then `require("./b")` and exports what the second
call returned; every other module exports its length. -/
def exampleModules : ModuleEngine (List BYTE) Nat :=
  { CompileModule := fun buffer => some buffer
    InstantiateModule := fun _ => some true
    SetExports := fun _ => some true
    Evaluate := fun module =>
      if module = [1] then
        .require ["./missing"] fun _ =>
          .require ["./b"] fun r => .finish (some 0) r.returnValue
      else .finish (some 0) (some module.length) }

/-- A script engine for the examples. The stand-in digest is the first byte
of the source repeated; a source that starts with the byte 0 does not compile
(the fault is caught); the script compiled from the single byte 66 throws
"boom" with a trace; every other script returns its length. The engine state
counts the engine calls. -/
def exampleEngine : Engine Nat (List BYTE) Nat :=
  { sha256 := fun rgch => ⟨List.replicate SHA256_BLOCK_SIZE (rgch.headD 0), by simp⟩
    Compile := fun e rgch =>
      if rgch.head? = some 0 then (none, ⟨true, "SyntaxError: Unexpected token", none⟩, e + 1)
      else (some rgch, ⟨false, "", none⟩, e + 1)
    Run := fun e script =>
      if script = [66] then (none, ⟨true, "boom", some "at <anonymous>:1:1"⟩, e + 1)
      else (some script.length, ⟨false, "", none⟩, e + 1) }

section cache

variable {σ Script Value : Type}

theorem javascript_run_script_hotscript (E : Engine σ Script Value) (w : World σ Script)
    (script : Script) : (javascript_run_script E w script).2.hotscript = w.hotscript := by
  unfold javascript_run_script
  split
  split
  · split <;> rfl
  · rfl

theorem javascript_run_script_compiled (E : Engine σ Script Value) (w : World σ Script)
    (script : Script) : (javascript_run_script E w script).2.compiled = w.compiled := by
  unfold javascript_run_script
  split
  split
  · split <;> rfl
  · rfl

theorem javascript_run_script_ran (E : Engine σ Script Value) (w : World σ Script)
    (script : Script) : (javascript_run_script E w script).2.ran = w.ran ++ [script] := by
  unfold javascript_run_script
  split
  split
  · split <;> rfl
  · rfl

theorem javascript_run_hit (E : Engine σ Script Value) (w : World σ Script)
    (rgch : List BYTE) (script : Script) (h : w.lookup E rgch = some script) :
    javascript_run E w rgch = javascript_run_script E w script := by
  unfold javascript_run
  rw [h]

theorem javascript_run_compiled_ok (E : Engine σ Script Value) (w : World σ Script)
    (rgch : List BYTE) (script : Script) (h : w.lookup E rgch = none)
    (hc : (E.Compile w.engine rgch).1 = some script) :
    javascript_run E w rgch =
      javascript_run_script E
        { hotscript := some (HotScript.new E rgch (some script))
          engine := (E.Compile w.engine rgch).2.2
          compiled := w.compiled ++ [rgch]
          ran := w.ran } script := by
  unfold javascript_run
  rw [h]
  rcases hC : E.Compile w.engine rgch with ⟨scriptMaybe, trycatch, e⟩
  rw [hC] at hc
  simp only at hc
  subst hc
  rfl

theorem javascript_run_compile_failed (E : Engine σ Script Value) (w : World σ Script)
    (rgch : List BYTE) (h : w.lookup E rgch = none)
    (hc : (E.Compile w.engine rgch).1 = none) :
    javascript_run E w rgch =
      (if (E.Compile w.engine rgch).2.1.HasCaught then
          .error (.message (prettyPrintException (E.Compile w.engine rgch).2.1))
        else .error .null,
       { hotscript := w.hotscript
         engine := (E.Compile w.engine rgch).2.2
         compiled := w.compiled ++ [rgch]
         ran := w.ran }) := by
  unfold javascript_run
  rw [h]
  rcases hC : E.Compile w.engine rgch with ⟨scriptMaybe, trycatch, e⟩
  rw [hC] at hc
  simp only at hc
  subst hc
  simp only
  split <;> rfl

theorem lookup_new (E : Engine σ Script Value) (w : World σ Script) (rgch : List BYTE)
    (script : Script) (h : w.hotscript = some (HotScript.new E rgch (some script))) :
    w.lookup E rgch = some script := by
  simp [World.lookup, h, HotScript.FGetScript, HotScript.FGetScript_hash, HotScript.new]

theorem lookup_other (E : Engine σ Script Value) (w : World σ Script) (s t : List BYTE)
    (script : Option Script) (h : w.hotscript = some (HotScript.new E s script))
    (hne : E.sha256 t ≠ E.sha256 s) : w.lookup E t = none := by
  simp only [World.lookup, h, HotScript.FGetScript, HotScript.FGetScript_hash, HotScript.new]
  rw [if_pos (fun h2 => hne h2.symm)]

theorem javascript_run_slot (E : Engine σ Script Value) (w : World σ Script)
    (rgch : List BYTE) :
    (javascript_run E w rgch).2.hotscript = w.hotscript ∨
      ∃ script, (E.Compile w.engine rgch).1 = some script ∧
        (javascript_run E w rgch).2.hotscript =
          some { m_script := some script, m_hash := E.sha256 rgch } := by
  cases hl : w.lookup E rgch with
  | some script =>
    left
    rw [javascript_run_hit E w rgch script hl, javascript_run_script_hotscript]
  | none =>
    cases hc : (E.Compile w.engine rgch).1 with
    | none =>
      left
      rw [javascript_run_compile_failed E w rgch hl hc]
    | some script =>
      right
      refine ⟨script, rfl, ?_⟩
      rw [javascript_run_compiled_ok E w rgch script hl hc, javascript_run_script_hotscript]
      rfl

theorem slotValid_step (E : Engine σ Script Value) (w : World σ Script) (rgch : List BYTE)
    (h : SlotValid E w.hotscript) : SlotValid E (javascript_run E w rgch).2.hotscript := by
  rcases javascript_run_slot E w rgch with h1 | ⟨script, hc, h1⟩
  · rw [h1]; exact h
  · right
    exact ⟨rgch, script, w.engine, hc, h1⟩

theorem slotValid_runs (E : Engine σ Script Value) (calls : List (List BYTE))
    (w : World σ Script) (h : SlotValid E w.hotscript) :
    SlotValid E (runs E w calls).hotscript := by
  induction calls generalizing w with
  | nil => exact h
  | cons rgch rest ih => exact ih _ (slotValid_step E w rgch h)

/-- C1: when `javascript_run(context, s)` misses the cache and compiles `s`
successfully, the slot holds the handle of that compilation, and the next
`javascript_run(context, s)` with the same bytes finds it there: it is the
run of that very handle, the log of compiler calls does not grow, and the
slot stays as it was. -/
theorem cache_hit_after_compile (E : Engine σ Script Value) (w : World σ Script)
    (s : List BYTE) (script : Script)
    (hmiss : w.lookup E s = none)
    (hcompile : (E.Compile w.engine s).1 = some script) :
    (javascript_run E w s).2.hotscript = some (HotScript.new E s (some script)) ∧
    (javascript_run E w s).2.compiled = w.compiled ++ [s] ∧
    (javascript_run E w s).2.lookup E s = some script ∧
    javascript_run E (javascript_run E w s).2 s
      = javascript_run_script E (javascript_run E w s).2 script ∧
    (javascript_run E (javascript_run E w s).2 s).2.compiled
      = (javascript_run E w s).2.compiled ∧
    (javascript_run E (javascript_run E w s).2 s).2.ran
      = (javascript_run E w s).2.ran ++ [script] ∧
    (javascript_run E (javascript_run E w s).2 s).2.hotscript
      = (javascript_run E w s).2.hotscript := by
  have h1 : (javascript_run E w s).2.hotscript = some (HotScript.new E s (some script)) := by
    rw [javascript_run_compiled_ok E w s script hmiss hcompile, javascript_run_script_hotscript]
  have h2 := lookup_new E (javascript_run E w s).2 s script h1
  have h3 := javascript_run_hit E (javascript_run E w s).2 s script h2
  refine ⟨h1, ?_, h2, h3, ?_, ?_, ?_⟩
  · rw [javascript_run_compiled_ok E w s script hmiss hcompile, javascript_run_script_compiled]
  · rw [h3, javascript_run_script_compiled]
  · rw [h3, javascript_run_script_ran]
  · rw [h3, javascript_run_script_hotscript]

/-- C9 as amended: after a `javascript_run(context, s1)` that compiled `s1`,
a `javascript_run(context, s2)` whose fingerprint differs from the stored one
misses in `FGetScript` and hands `s2` to the compiler. -/
theorem differing_fingerprint_recompiles (E : Engine σ Script Value) (w : World σ Script)
    (s1 s2 : List BYTE) (script : Script)
    (hmiss : w.lookup E s1 = none)
    (hcompile : (E.Compile w.engine s1).1 = some script)
    (hfingerprint : E.sha256 s2 ≠ E.sha256 s1) :
    (javascript_run E w s1).2.hotscript = some (HotScript.new E s1 (some script)) ∧
    (HotScript.new E s1 (some script)).FGetScript E s2 = none ∧
    (javascript_run E w s1).2.lookup E s2 = none ∧
    (javascript_run E (javascript_run E w s1).2 s2).2.compiled
      = (javascript_run E w s1).2.compiled ++ [s2] := by
  have h1 : (javascript_run E w s1).2.hotscript = some (HotScript.new E s1 (some script)) := by
    rw [javascript_run_compiled_ok E w s1 script hmiss hcompile, javascript_run_script_hotscript]
  have h2 := lookup_other E (javascript_run E w s1).2 s1 s2 (some script) h1 hfingerprint
  refine ⟨h1, ?_, h2, ?_⟩
  · simp only [HotScript.FGetScript, HotScript.FGetScript_hash, HotScript.new]
    rw [if_pos (fun h => hfingerprint h.symm)]
  · cases hc : (E.Compile (javascript_run E w s1).2.engine s2).1 with
    | none => rw [javascript_run_compile_failed E _ s2 h2 hc]
    | some script2 =>
      rw [javascript_run_compiled_ok E _ s2 script2 h2 hc, javascript_run_script_compiled]

/-- C10: after any sequence of `javascript_run` calls from the empty slot the
slot is empty or holds a digest and a non-empty handle that come from one
source: the digest is its SHA-256 and the handle is what compiling it gave.
Every single call leaves the slot as it was or replaces both fields with the
digest and the handle of the source it has just compiled. -/
theorem slot_invariant (E : Engine σ Script Value) (e0 : σ) (calls : List (List BYTE)) :
    SlotValid E (runs E (World.fresh e0) calls).hotscript ∧
    ∀ (w : World σ Script) (rgch : List BYTE),
      (javascript_run E w rgch).2.hotscript = w.hotscript ∨
      ∃ script, (E.Compile w.engine rgch).1 = some script ∧
        (javascript_run E w rgch).2.hotscript =
          some { m_script := some script, m_hash := E.sha256 rgch } :=
  ⟨slotValid_runs E calls (World.fresh e0) (Or.inl rfl), javascript_run_slot E⟩

/-- C9, refuted as stated: no engine in which more than `256 ^ 32` sources
compile can make every pair of differing sources behave as the claim says,
because a digest has 32 bytes. Some source `s1` that compiles and some other
source `s2` share a fingerprint, so the claim's first conclusion (the
fingerprint of `s2` differs from the one stored for `s1`) fails there. -/
theorem fingerprints_cannot_separate :
    ¬ ∃ (σ Script Value : Type) (E : Engine σ Script Value) (e0 : σ)
        (S : Finset (List BYTE)),
      256 ^ SHA256_BLOCK_SIZE < S.card ∧
      (∀ s ∈ S, ∃ script, (E.Compile e0 s).1 = some script) ∧
      ∀ (s1 s2 : List BYTE) (script : Script),
        s1 ≠ s2 → (E.Compile e0 s1).1 = some script →
          (∀ hs, (javascript_run E (World.fresh e0) s1).2.hotscript = some hs →
            E.sha256 s2 ≠ hs.m_hash) ∧
          (javascript_run E (World.fresh e0) s1).2.lookup E s2 = none ∧
          (javascript_run E (javascript_run E (World.fresh e0) s1).2 s2).2.compiled
            = (javascript_run E (World.fresh e0) s1).2.compiled ++ [s2] := by
  rintro ⟨σ, Script, Value, E, e0, S, hcard, hS, hall⟩
  have hlt : Fintype.card Digest < Fintype.card {s // s ∈ S} := by
    rw [card_vector, Fintype.card_fin, Fintype.card_coe]
    exact hcard
  obtain ⟨x, y, hxy, heq⟩ :=
    Fintype.exists_ne_map_eq_of_card_lt (fun s : {s // s ∈ S} => E.sha256 s.1) hlt
  obtain ⟨s1, hs1⟩ := x
  obtain ⟨s2, hs2⟩ := y
  have hne : s1 ≠ s2 := fun h => hxy (Subtype.ext h)
  simp only at heq
  obtain ⟨script, hc⟩ := hS s1 hs1
  have hslot : (javascript_run E (World.fresh e0) s1).2.hotscript
      = some (HotScript.new E s1 (some script)) := by
    rw [javascript_run_compiled_ok E (World.fresh e0) s1 script rfl hc,
      javascript_run_script_hotscript]
  exact (hall s1 s2 script hne hc).1 _ hslot heq.symm

/-- C8: for a caught fault whose text is `m`, `prettyPrintException` returns
`m` when there is no stack trace and `m`, a newline and the trace when there
is one, so its result always starts with `m`; and `javascript_run` throws
that string when the script it runs (given, cached or freshly compiled)
fails with the fault caught. -/
theorem diagnostic_of_caught_fault (m : String) :
    (∀ caught, prettyPrintException ⟨caught, m, none⟩ = m) ∧
    (∀ caught t, prettyPrintException ⟨caught, m, some t⟩ = m ++ "\n" ++ t) ∧
    (∀ tc : TryCatch, tc.Exception = m → ∃ rest, prettyPrintException tc = m ++ rest) ∧
    (∀ (σ Script Value : Type) (E : Engine σ Script Value) (w : World σ Script)
        (script : Script) (tc : TryCatch) (e : σ),
      E.Run w.engine script = (none, tc, e) → tc.HasCaught = true → tc.Exception = m →
        (javascript_run_script E w script).1
          = .error (.message (prettyPrintException tc))) ∧
    (∀ (σ Script Value : Type) (E : Engine σ Script Value) (w : World σ Script)
        (rgch : List BYTE) (script : Script) (tc : TryCatch) (e : σ),
      w.lookup E rgch = some script →
      E.Run w.engine script = (none, tc, e) → tc.HasCaught = true → tc.Exception = m →
        (javascript_run E w rgch).1 = .error (.message (prettyPrintException tc))) ∧
    (∀ (σ Script Value : Type) (E : Engine σ Script Value) (w : World σ Script)
        (rgch : List BYTE) (script : Script) (tc : TryCatch) (e : σ),
      w.lookup E rgch = none → (E.Compile w.engine rgch).1 = some script →
      E.Run (E.Compile w.engine rgch).2.2 script = (none, tc, e) →
      tc.HasCaught = true → tc.Exception = m →
        (javascript_run E w rgch).1 = .error (.message (prettyPrintException tc))) := by
  have hrun : ∀ (σ Script Value : Type) (E : Engine σ Script Value) (w : World σ Script)
      (script : Script) (tc : TryCatch) (e : σ),
      E.Run w.engine script = (none, tc, e) → tc.HasCaught = true →
        (javascript_run_script E w script).1
          = .error (.message (prettyPrintException tc)) := by
    intro σ Script Value E w script tc e hr hc
    unfold javascript_run_script
    rw [hr]
    simp only [hc, if_true]
  refine ⟨fun _ => rfl, fun _ _ => rfl, ?_, ?_, ?_, ?_⟩
  · intro tc htc
    subst htc
    cases hst : tc.StackTrace with
    | none => exact ⟨"", by simp [prettyPrintException, hst]⟩
    | some t => exact ⟨"\n" ++ t, by simp [prettyPrintException, hst, String.append_assoc]⟩
  · intro σ Script Value E w script tc e hr hc _
    exact hrun σ Script Value E w script tc e hr hc
  · intro σ Script Value E w rgch script tc e hl hr hc _
    rw [javascript_run_hit E w rgch script hl]
    exact hrun σ Script Value E w script tc e hr hc
  · intro σ Script Value E w rgch script tc e hl hcomp hr hc _
    rw [javascript_run_compiled_ok E w rgch script hl hcomp]
    exact hrun σ Script Value E _ script tc e hr hc

end cache

/-! ### The cache theorems at concrete calls -/

/-- C1 at concrete calls: the source `[1, 2]` run twice from a fresh thread. -/
theorem cache_hit_after_compile_example :
    (World.fresh 0 : World Nat (List BYTE)).lookup exampleEngine [1, 2] = none ∧
    (exampleEngine.Compile 0 [1, 2]).1 = some [1, 2] ∧
    (javascript_run exampleEngine
        (javascript_run exampleEngine (World.fresh 0) [1, 2]).2 [1, 2]).2.compiled
      = (javascript_run exampleEngine (World.fresh 0) [1, 2]).2.compiled ∧
    (javascript_run exampleEngine
        (javascript_run exampleEngine (World.fresh 0) [1, 2]).2 [1, 2]).2.ran
      = (javascript_run exampleEngine (World.fresh 0) [1, 2]).2.ran ++ [[1, 2]] :=
  have h := cache_hit_after_compile exampleEngine (World.fresh 0) [1, 2] [1, 2] rfl rfl
  ⟨rfl, rfl, h.2.2.2.2.1, h.2.2.2.2.2.1⟩

/-- C9 as amended, at concrete calls: `[1, 2]`, then `[3]`, whose stand-in
digest differs. -/
theorem differing_fingerprint_recompiles_example :
    (World.fresh 0 : World Nat (List BYTE)).lookup exampleEngine [1, 2] = none ∧
    (exampleEngine.Compile 0 [1, 2]).1 = some [1, 2] ∧
    exampleEngine.sha256 [3] ≠ exampleEngine.sha256 [1, 2] ∧
    (javascript_run exampleEngine
        (javascript_run exampleEngine (World.fresh 0) [1, 2]).2 [3]).2.compiled
      = (javascript_run exampleEngine (World.fresh 0) [1, 2]).2.compiled ++ [[3]] :=
  have hne : exampleEngine.sha256 [3] ≠ exampleEngine.sha256 [1, 2] := by decide
  ⟨rfl, rfl, hne,
    (differing_fingerprint_recompiles exampleEngine (World.fresh 0) [1, 2] [3] [1, 2]
      rfl rfl hne).2.2.2⟩

/-- C8 at a concrete call: a script that throws "boom", with a trace. -/
theorem diagnostic_of_caught_fault_example :
    (javascript_run exampleEngine (World.fresh 0) [66]).1
      = .error (.message "boom\nat <anonymous>:1:1") ∧
    ∃ rest, prettyPrintException ⟨true, "boom", some "at <anonymous>:1:1"⟩ = "boom" ++ rest :=
  have h := diagnostic_of_caught_fault "boom"
  ⟨h.2.2.2.2.2 Nat (List BYTE) Nat exampleEngine (World.fresh 0) [66] [66]
      ⟨true, "boom", some "at <anonymous>:1:1"⟩ 2 rfl rfl rfl rfl rfl,
    h.2.2.1 ⟨true, "boom", some "at <anonymous>:1:1"⟩ rfl⟩



/-! ## Theorems: pathnames -/

namespace path

theorem pieces_ne_nil (s : List Char) : pieces s ≠ [] := by
  cases s with
  | nil => simp [pieces]
  | cons c cs =>
    unfold pieces
    split
    · simp
    · split <;> simp

theorem pieces_sum (s : List Char) :
    sumLen (pieces s) + (pieces s).length = s.length + 1 := by
  induction s with
  | nil => simp [pieces, sumLen]
  | cons c cs ih =>
    unfold pieces
    split
    · simp [sumLen] at ih ⊢; omega
    · split
      · rename_i h; exact absurd h (pieces_ne_nil cs)
      · rename_i w ws h
        rw [h] at ih
        simp [sumLen] at ih ⊢; omega

theorem sumLen_filter (l : List (List Char)) :
    sumLen (l.filter (fun w => w ≠ [])) = sumLen l := by
  induction l with
  | nil => rfl
  | cons a t ih =>
    by_cases h : a = []
    · subst h; simpa [sumLen] using ih
    · simp [List.filter, h, sumLen] at ih ⊢; omega

theorem length_filter_add (l : List (List Char)) :
    (l.filter (fun w => w ≠ [])).length + l.countP (fun w => w = []) = l.length := by
  induction l with
  | nil => rfl
  | cons a t ih =>
    by_cases h : a = []
    · subst h; simp at ih ⊢; omega
    · simp [List.filter, h] at ih ⊢; omega

theorem pieces_trailing (s : List Char) (h : s.getLast? = some '/') :
    ∃ init, init ≠ [] ∧ pieces s = init ++ [[]] := by
  induction s with
  | nil => simp at h
  | cons c t ih =>
    cases t with
    | nil =>
      simp at h
      subst h
      exact ⟨[[]], by simp, by simp [pieces]⟩
    | cons d t2 =>
      rw [List.getLast?_cons_cons] at h
      obtain ⟨init, hne, hp⟩ := ih h
      by_cases hc : c = '/'
      · refine ⟨[] :: init, by simp, ?_⟩
        rw [pieces, if_pos hc, hp]; rfl
      · cases init with
        | nil => exact absurd rfl hne
        | cons w ws =>
          refine ⟨(c :: w) :: ws, by simp, ?_⟩
          rw [pieces, if_neg hc, hp]; rfl

theorem countP_empty_ge (s : List Char) (h : s.getLast? = some '/') :
    1 ≤ (pieces s).countP (fun w => w = []) := by
  obtain ⟨init, _, hp⟩ := pieces_trailing s h
  rw [hp, List.countP_append]
  simp

/-- No piece of a pathname holds a separator. -/
theorem pieces_no_sep (s : List Char) : ∀ w ∈ pieces s, '/' ∉ w := by
  induction s with
  | nil => simp [pieces]
  | cons c cs ih =>
    unfold pieces
    split
    · intro w hw
      rcases List.mem_cons.mp hw with h | h
      · subst h; simp
      · exact ih w h
    · rename_i hc
      split
      · intro w hw
        simp at hw
        subst hw
        simpa using Ne.symm hc
      · rename_i w0 ws hp
        intro w hw
        rcases List.mem_cons.mp hw with h | h
        · subst h
          have := ih w0 (by rw [hp]; simp)
          intro hmem
          rcases List.mem_cons.mp hmem with h1 | h1
          · exact hc h1.symm
          · exact this h1
        · exact ih w (by rw [hp]; exact List.mem_cons_of_mem _ h)

/-- Characters of a pathname against its elements: each name, one separator
between two names, the root directory and a trailing separator. -/
theorem length_lower_bound (s : List Char) :
    sumLen (names_of s) + (names_of s).length
      + (if rooted s then 1 else 0)
      + (if trailing s then 1 else 0) ≤ s.length + 1 := by
  have hsum := pieces_sum s
  have hW := sumLen_filter (pieces s)
  have hL := length_filter_add (pieces s)
  have key : (if rooted s then 1 else 0) + (if trailing s then 1 else 0)
      ≤ (pieces s).countP (fun w => w = []) := by
    cases s with
    | nil => simp [rooted, trailing]
    | cons c cs =>
      by_cases hc : c = '/'
      · subst hc
        have hr : rooted ('/' :: cs) = true := by simp [rooted]
        have hp : (pieces ('/' :: cs)).countP (fun w => w = [])
            = (pieces cs).countP (fun w => w = []) + 1 := by
          simp [pieces]
        rw [hr, hp]
        by_cases ht : trailing ('/' :: cs) = true
        · have hcs : cs ≠ [] := by
            intro h0
            subst h0
            simp [trailing, names_of, pieces] at ht
          have hl : cs.getLast? = some '/' := by
            simp only [trailing, Bool.and_eq_true, decide_eq_true_eq] at ht
            cases cs with
            | nil => exact absurd rfl hcs
            | cons d t => rw [List.getLast?_cons_cons] at ht; exact ht.1
          have := countP_empty_ge cs hl
          rw [ht]
          simp only [if_true]
          omega
        · rw [Bool.not_eq_true] at ht
          rw [ht]
          simp
      · have hr : rooted (c :: cs) = false := by
          simp [rooted, hc]
        rw [hr]
        by_cases ht : trailing (c :: cs) = true
        · have hl : (c :: cs).getLast? = some '/' := by
            simp only [trailing, Bool.and_eq_true, decide_eq_true_eq] at ht
            exact ht.1
          have := countP_empty_ge (c :: cs) hl
          rw [ht]
          simpa using this
        · rw [Bool.not_eq_true] at ht
          rw [ht]
          simp
  simp only [names_of] at *
  omega

theorem append_length_le (p : path) (src : List Char) :
    (p.append src).pathname.length ≤ p.pathname.length + src.length + 1 := by
  unfold append
  split
  · simp; omega
  · simp

theorem append_nil_left (src : List Char) : (path.mk []).append src = ⟨src⟩ := by
  simp [append]

theorem append_root (src : List Char) : (path.mk ['/']).append src = ⟨'/' :: src⟩ := by
  simp [append]

theorem foldl_append_length_le (es : List (List Char)) (p : path) :
    (es.foldl append p).pathname.length ≤ p.pathname.length + sumLen es + es.length := by
  induction es generalizing p with
  | nil => simp [sumLen]
  | cons e t ih =>
    have h1 := ih (p.append e)
    have h2 := append_length_le p e
    simp only [List.foldl_cons, sumLen, List.map_cons, List.sum_cons, List.length_cons] at h1 ⊢
    omega

theorem join_names_length (N : List (List Char)) (h : N ≠ []) :
    (N.foldl append ⟨[]⟩).pathname.length + 1 ≤ sumLen N + N.length := by
  cases N with
  | nil => exact absurd rfl h
  | cons e t =>
    have h1 := foldl_append_length_le t ⟨e⟩
    simp only [List.foldl_cons, append_nil_left, sumLen, List.map_cons, List.sum_cons,
      List.length_cons] at h1 ⊢
    omega

theorem join_root_names_length (N : List (List Char)) (h : N ≠ []) :
    (N.foldl append ⟨['/']⟩).pathname.length ≤ sumLen N + N.length := by
  cases N with
  | nil => exact absurd rfl h
  | cons e t =>
    have h1 := foldl_append_length_le t ⟨'/' :: e⟩
    simp only [List.foldl_cons, append_root, sumLen, List.map_cons, List.sum_cons,
      List.length_cons] at h1 ⊢
    omega

theorem names_mem_ne_nil (s : List Char) (w : List Char) (h : w ∈ names_of s) : w ≠ [] := by
  simp [names_of] at h
  exact h.2

theorem names_mem_no_sep (s : List Char) (w : List Char) (h : w ∈ names_of s) : '/' ∉ w := by
  simp only [names_of, List.mem_filter] at h
  exact pieces_no_sep s w h.1

theorem sumLen_append (a b : List (List Char)) : sumLen (a ++ b) = sumLen a + sumLen b := by
  simp [sumLen]

theorem elements_of_eq (s : List Char) (r t : Bool) (hr : rooted s = r)
    (ht : trailing s = t) :
    elements_of s = (if r then [['/']] else []) ++ names_of s ++ (if t then [['.']] else []) := by
  subst hr ht
  rfl

/-- Without a root name: the elements but the last, joined, are shorter than
the pathname. -/
theorem join_dropLast_length_lt (s : List Char) (hlen : 2 ≤ (elements_of s).length) :
    ((elements_of s).dropLast.foldl append ⟨[]⟩).pathname.length < s.length := by
  have hlow := length_lower_bound s
  cases ht : trailing s
  · -- no trailing separator: the last element is the last name
    rcases List.eq_nil_or_concat (names_of s) with h0 | ⟨N, f, hN⟩
    · exfalso
      cases hr : rooted s <;>
        simp [elements_of_eq s _ _ hr ht, h0] at hlen
    · rw [List.concat_eq_append] at hN
      have hf : f ≠ [] := names_mem_ne_nil s f (by rw [hN]; simp)
      have hfl : 0 < f.length := List.length_pos.mpr hf
      have hW : sumLen (names_of s) = sumLen N + f.length := by
        rw [hN, sumLen_append]; simp [sumLen]
      have hL : (names_of s).length = N.length + 1 := by rw [hN]; simp
      cases hr : rooted s
      · have he : elements_of s = N ++ [f] := by
          rw [elements_of_eq s _ _ hr ht, hN]; simp
        rw [he] at hlen ⊢
        rw [List.dropLast_concat]
        have hN0 : N ≠ [] := by
          intro h0
          subst h0
          simp at hlen
        have := join_names_length N hN0
        simp only [hr, ht, Bool.false_eq_true, if_false] at hlow
        omega
      · have he : elements_of s = (['/'] :: N) ++ [f] := by
          rw [elements_of_eq s _ _ hr ht, hN]; simp
        rw [he, List.dropLast_concat, List.foldl_cons, append_nil_left]
        simp only [hr, ht, Bool.false_eq_true, if_false, if_true] at hlow
        by_cases hN0 : N = []
        · subst hN0
          have h0 : sumLen ([] : List (List Char)) = 0 := rfl
          simp only [List.foldl_nil, List.length_singleton, List.length_nil] at hL ⊢
          omega
        · have := join_root_names_length N hN0
          omega
  · -- a trailing separator: the last element is the dot
    have hn : names_of s ≠ [] := by
      intro h0
      simp [trailing, h0] at ht
    cases hr : rooted s
    · have he : elements_of s = names_of s ++ [['.']] := by
        rw [elements_of_eq s _ _ hr ht]; simp
      rw [he, List.dropLast_concat]
      have := join_names_length (names_of s) hn
      simp only [hr, ht, Bool.false_eq_true, if_false, if_true] at hlow
      omega
    · have he : elements_of s = (['/'] :: names_of s) ++ [['.']] := by
        rw [elements_of_eq s _ _ hr ht]; simp
      rw [he, List.dropLast_concat, List.foldl_cons, append_nil_left]
      have := join_root_names_length (names_of s) hn
      simp only [hr, ht, if_true] at hlow
      omega

theorem dropWhile_head (r : List Char) :
    r.dropWhile (fun x => x ≠ '/') = [] ∨
      (r.dropWhile (fun x => x ≠ '/')).head? = some '/' := by
  induction r with
  | nil => left; rfl
  | cons a t ih =>
    by_cases h : a = '/'
    · right; subst h; simp [List.dropWhile]
    · simpa [List.dropWhile, h] using ih

/-- The root name and the rest make up the pathname. -/
theorem split_root_name_append (s : List Char) :
    (split_root_name s).1 ++ (split_root_name s).2 = s := by
  unfold split_root_name
  split
  · split
    · simp [List.takeWhile_append_dropWhile]
    · rfl
  · split <;> simp
  · rfl

/-- After a root name the pathname ends or goes on with a separator. -/
theorem split_root_name_rest (s : List Char) (h : (split_root_name s).1 ≠ []) :
    (split_root_name s).2 = [] ∨ rooted (split_root_name s).2 = true := by
  match s, h with
  | [], h => exact absurd rfl h
  | [_], h => exact absurd rfl h
  | [a, b], h =>
    left
    simp only [split_root_name] at h ⊢
    by_cases hc : a = '/' ∧ b = '/'
    · rw [if_pos hc]
    · rw [if_neg hc] at h
      exact absurd rfl h
  | a :: b :: c :: r, h =>
    simp only [split_root_name] at h ⊢
    by_cases hc : a = '/' ∧ b = '/' ∧ c ≠ '/'
    · rw [if_pos hc]
      simp only [rooted, decide_eq_true_eq]
      exact dropWhile_head r
    · rw [if_neg hc] at h
      exact absurd rfl h

theorem elements_of_nil : elements_of [] = [] := by decide

theorem append_prefix (x a src : List Char) (h : a ≠ []) :
    (path.mk (x ++ a)).append src = ⟨x ++ ((path.mk a).append src).pathname⟩ := by
  have h1 : x ++ a ≠ [] := by simp [h]
  have h2 : (x ++ a).getLast? = a.getLast? := by
    rw [List.getLast?_append_of_ne_nil x h]
  unfold append
  simp only [h1, h2, h, ne_eq, not_false_eq_true, true_and]
  split <;> simp

theorem append_ne_nil (p : path) (src : List Char) (h : p.pathname ≠ []) :
    (p.append src).pathname ≠ [] := by
  unfold append
  split <;> simp [h]

theorem foldl_append_ne_nil (es : List (List Char)) (p : path) (h : p.pathname ≠ []) :
    (es.foldl append p).pathname ≠ [] := by
  induction es generalizing p with
  | nil => exact h
  | cons e t ih => exact ih _ (append_ne_nil p e h)

theorem foldl_append_prefix (es : List (List Char)) (x a : List Char) (h : a ≠ []) :
    es.foldl append ⟨x ++ a⟩ = ⟨x ++ (es.foldl append ⟨a⟩).pathname⟩ := by
  induction es generalizing a with
  | nil => rfl
  | cons e t ih =>
    rw [List.foldl_cons, List.foldl_cons, append_prefix x a e h]
    exact ih _ (append_ne_nil ⟨a⟩ e h)

/-- Each step of the ascent shortens the pathname. -/
theorem parent_path_length_lt (p : path) (h : p.pathname ≠ []) :
    (parent_path p).pathname.length < p.pathname.length := by
  have hpos : 0 < p.pathname.length := List.length_pos.mpr h
  have happ := split_root_name_append p.pathname
  have hlen0 : p.pathname.length =
      (split_root_name p.pathname).1.length + (split_root_name p.pathname).2.length := by
    rw [← List.length_append, happ]
  unfold parent_path
  split
  · simpa using hpos
  · rename_i hlen
    by_cases hroot : (split_root_name p.pathname).1 = []
    · -- no root name
      have he : elements p = elements_of p.pathname := by
        have h2 : (split_root_name p.pathname).2 = p.pathname := by
          rw [hroot] at happ; simpa using happ
        simp [elements, has_root_name, root_name, after_root_name, hroot, h2]
      rw [he] at hlen ⊢
      exact join_dropLast_length_lt p.pathname (by omega)
    · -- a root name, then nothing or a root directory
      have he : elements p =
          (split_root_name p.pathname).1 :: elements_of (split_root_name p.pathname).2 := by
        simp [elements, has_root_name, root_name, after_root_name, hroot]
      rw [he] at hlen ⊢
      rcases split_root_name_rest p.pathname hroot with hrest | hrest
      · rw [hrest, elements_of_nil] at hlen
        simp at hlen
      · have hrest_ne : (split_root_name p.pathname).2 ≠ [] := by
          intro h0
          rw [h0] at hrest
          simp [rooted] at hrest
        have hrl : 0 < (split_root_name p.pathname).2.length := List.length_pos.mpr hrest_ne
        rcases List.eq_nil_or_concat (elements_of (split_root_name p.pathname).2) with
          h0 | ⟨L, f, hL⟩
        · rw [h0] at hlen
          simp at hlen
        · rw [List.concat_eq_append] at hL
          rw [hL, ← List.cons_append, List.dropLast_concat, List.foldl_cons, append_nil_left]
          cases L with
          | nil =>
            simp only [List.foldl_nil]
            omega
          | cons e L1 =>
            have h2 : 2 ≤ (elements_of (split_root_name p.pathname).2).length := by
              rw [hL]; simp
            have hlt := join_dropLast_length_lt (split_root_name p.pathname).2 h2
            rw [hL, List.dropLast_concat] at hlt
            have hE : e = ['/'] := by
              have := elements_of_eq (split_root_name p.pathname).2 _ _ hrest rfl
              rw [hL] at this
              simp at this
              exact this.1
            subst hE
            rw [List.foldl_cons, append_nil_left] at hlt
            have hsep : (path.mk (split_root_name p.pathname).1).append ['/']
                = ⟨(split_root_name p.pathname).1 ++ ['/']⟩ := by
              simp [append]
            rw [List.foldl_cons, hsep, foldl_append_prefix L1 _ ['/'] (by simp)]
            simp only [List.length_append]
            omega

end path

/-! ## Theorems: `find_module` -/

namespace path

theorem parent_path_nil : parent_path ⟨[]⟩ = ⟨[]⟩ := by decide

theorem ne_nil_of_parent_not_empty (p : path) (h : p.parent_path.empty = false) :
    p.pathname ≠ [] := by
  intro h0
  obtain ⟨s⟩ := p
  simp only at h0
  subst h0
  rw [parent_path_nil] at h
  simp [empty] at h

theorem append_head (p : path) (src : List Char) (c : Char)
    (h : p.pathname.head? = some c) : (p.append src).pathname.head? = some c := by
  obtain ⟨s⟩ := p
  cases s with
  | nil => simp at h
  | cons a t =>
    unfold append
    split <;> simpa using h

theorem foldl_append_head (es : List (List Char)) (p : path) (c : Char)
    (h : p.pathname.head? = some c) : (es.foldl append p).pathname.head? = some c := by
  induction es generalizing p with
  | nil => exact h
  | cons e t ih => exact ih _ (append_head p e c h)

/-- A pathname that starts with one separator and not two has no root
name. -/
theorem plain_split (s : List Char) (h : plain_absolute s = true) :
    split_root_name s = ([], s) := by
  match s, h with
  | [], _ => rfl
  | [_], _ => rfl
  | [a, b], h =>
    simp only [split_root_name]
    have hb : b ≠ '/' := by
      intro hb
      subst hb
      simp [plain_absolute] at h
    rw [if_neg (fun hc => hb hc.2)]
  | a :: b :: c :: r, h =>
    simp only [split_root_name]
    have hb : b ≠ '/' := by
      intro hb
      subst hb
      simp [plain_absolute] at h
    rw [if_neg (fun hc => hb hc.2.1)]

theorem plain_elements (p : path) (h : plain_absolute p.pathname = true) :
    elements p = ['/'] :: (names_of p.pathname ++
      (if trailing p.pathname then [['.']] else [])) := by
  have hs := plain_split p.pathname h
  have hr : rooted p.pathname = true := by
    simp only [plain_absolute, Bool.and_eq_true, decide_eq_true_eq] at h
    simp [rooted, h.1]
  simp [elements, has_root_name, root_name, after_root_name, hs, elements_of, hr]

theorem plain_names (p : path) (h : plain_absolute p.pathname = true) :
    names p = names_of p.pathname := by
  simp [names, after_root_name, plain_split p.pathname h]

theorem plain_has_root_directory (p : path) (h : plain_absolute p.pathname = true) :
    p.has_root_directory = true := by
  have hr : rooted p.pathname = true := by
    simp only [plain_absolute, Bool.and_eq_true, decide_eq_true_eq] at h
    simp [rooted, h.1]
  simp [has_root_directory, after_root_name, plain_split p.pathname h, hr]

theorem tail_elements_good (s : List Char) :
    ∀ w ∈ names_of s ++ (if trailing s then [['.']] else []), w ≠ [] ∧ '/' ∉ w := by
  intro w hw
  rcases List.mem_append.mp hw with h | h
  · exact ⟨names_mem_ne_nil s w h, names_mem_no_sep s w h⟩
  · split at h
    · simp at h
      subst h
      exact ⟨by simp, by simp⟩
    · simp at h

/-- The parent of an absolute path without a root name is empty or again
such a path. -/
theorem plain_parent (p : path) (h : plain_absolute p.pathname = true)
    (hne : p.parent_path.empty = false) :
    plain_absolute p.parent_path.pathname = true := by
  have he := plain_elements p h
  have hgood := tail_elements_good p.pathname
  unfold parent_path at hne ⊢
  split
  · rename_i hlen
    rw [if_pos hlen] at hne
    simp [empty] at hne
  · rename_i hlen
    rw [he] at hlen ⊢
    rcases List.eq_nil_or_concat
      (names_of p.pathname ++ (if trailing p.pathname then [['.']] else [])) with h0 | ⟨L, f, hL⟩
    · rw [h0] at hlen
      simp at hlen
    · rw [List.concat_eq_append] at hL
      rw [hL] at hgood
      rw [hL, ← List.cons_append, List.dropLast_concat, List.foldl_cons, append_nil_left]
      cases L with
      | nil => decide
      | cons n L1 =>
        obtain ⟨hn1, hn2⟩ := hgood n (by simp)
        rw [List.foldl_cons, append_root]
        have hpre := foldl_append_prefix L1 ['/'] n hn1
        simp only [List.singleton_append] at hpre
        rw [hpre]
        cases n with
        | nil => exact absurd rfl hn1
        | cons c n1 =>
          have hc : c ≠ '/' := by
            intro hc
            subst hc
            exact hn2 (by simp)
          have hh := foldl_append_head L1 ⟨c :: n1⟩ c rfl
          simp only [plain_absolute, List.head?_cons, List.tail_cons, hh, Bool.and_eq_true,
            decide_eq_true_eq, bne_iff_ne, ne_eq, Option.some.injEq, true_and]
          exact hc

/-- An absolute path without a root name whose parent is empty has no file
name: it is the root directory. -/
theorem plain_root (p : path) (h : plain_absolute p.pathname = true)
    (hp : p.parent_path.empty = true) : names p = [] := by
  rw [plain_names p h]
  have he := plain_elements p h
  unfold parent_path at hp
  split at hp
  · rename_i hlen
    rw [he] at hlen
    simp only [List.length_cons, List.length_append] at hlen
    have : (names_of p.pathname).length = 0 := by omega
    exact List.length_eq_zero.mp this
  · rename_i hlen
    exfalso
    rw [he] at hlen hp
    rcases List.eq_nil_or_concat
      (names_of p.pathname ++ (if trailing p.pathname then [['.']] else [])) with h0 | ⟨L, f, hL⟩
    · rw [h0] at hlen
      simp at hlen
    · rw [hL, List.concat_eq_append, ← List.cons_append, List.dropLast_concat,
        List.foldl_cons, append_nil_left] at hp
      have := foldl_append_ne_nil L ⟨['/']⟩ (by simp)
      simp [empty] at hp
      exact this hp

end path

theorem ancestors_head (fuel : Nat) (wdir : path) :
    (ancestors (fuel + 1) wdir).head? = some wdir := rfl

theorem ancestors_chain (fuel : Nat) (wdir : path) :
    List.Chain' (fun d d1 => d1 = d.parent_path) (ancestors fuel wdir) := by
  induction fuel generalizing wdir with
  | zero => simp [ancestors]
  | succ n ih =>
    unfold ancestors
    split
    · simp
    · cases n with
      | zero => simp [ancestors]
      | succ m =>
        have := ih wdir.parent_path
        rw [List.chain'_cons']
        exact ⟨fun y hy => by rw [ancestors_head] at hy; simp at hy; exact hy.symm, this⟩

theorem ancestors_last (fuel : Nat) (wdir r : path) (hfuel : wdir.pathname.length < fuel)
    (h : (ancestors fuel wdir).getLast? = some r) :
    r.parent_path.empty = true ∧
      (path.plain_absolute wdir.pathname = true → path.plain_absolute r.pathname = true) := by
  induction fuel generalizing wdir with
  | zero => omega
  | succ n ih =>
    unfold ancestors at h
    by_cases hp : wdir.parent_path.empty = true
    · rw [if_pos hp] at h
      simp at h
      subst h
      exact ⟨hp, id⟩
    · rw [if_neg hp] at h
      rw [Bool.not_eq_true] at hp
      have hne := wdir.ne_nil_of_parent_not_empty hp
      have hlt := wdir.parent_path_length_lt hne
      have hn : wdir.parent_path.pathname.length < n := by omega
      cases n with
      | zero => omega
      | succ m =>
        have hne2 : ancestors (m + 1) wdir.parent_path ≠ [] := by simp [ancestors]
        obtain ⟨a, l, hal⟩ := List.exists_cons_of_ne_nil hne2
        rw [hal, List.getLast?_cons_cons, ← hal] at h
        obtain ⟨h1, h2⟩ := ih wdir.parent_path hn h
        exact ⟨h1, fun hr => h2 (wdir.plain_parent hr hp)⟩

theorem ascend_ne_out_of_fuel (fsys : FileSystem) (name : path) (fuel : Nat) (wdir : path)
    (hfuel : wdir.pathname.length < fuel) :
    find_module.ascend fsys name fuel wdir ≠ .out_of_fuel := by
  induction fuel generalizing wdir with
  | zero => omega
  | succ n ih =>
    have hcont : (if wdir.parent_path.empty = true then Found.no_return
        else find_module.ascend fsys name n wdir.parent_path) ≠ .out_of_fuel := by
      by_cases hp : wdir.parent_path.empty = true
      · rw [if_pos hp]; simp
      · rw [if_neg hp]
        rw [Bool.not_eq_true] at hp
        have hlt := wdir.parent_path_length_lt (wdir.ne_nil_of_parent_not_empty hp)
        exact ih _ (by omega)
    unfold find_module.ascend
    simp only
    split
    · simp
    · exact hcont
    · split
      · simp
      · simp
      · split
        · simp
        · simp
        · exact hcont

/-- The function `find_module` always ends: its loop never uses up the
steps it is given. -/
theorem find_module_ne_out_of_fuel (fsys : FileSystem) (name : path) :
    find_module fsys name ≠ .out_of_fuel := by
  unfold find_module
  simp only
  split
  · simp
  · simp
  · split
    · simp
    · exact ascend_ne_out_of_fuel fsys name _ _ (Nat.lt_succ_self _)

theorem ascend_eq_first (fsys : FileSystem) (name : path) (fuel : Nat) (wdir : path)
    (hfuel : wdir.pathname.length < fuel)
    (hdir : ∀ d ∈ ancestors fuel wdir,
      (fsys.is_directory (d.div node_modules) = none →
        fsys.exists_ (((d.div node_modules).div name).concat dot_js) = none) ∧
      (fsys.is_directory (d.div node_modules) = some false →
        ∀ c ∈ node_candidates name d, fsys.exists_ c = some false)) :
    find_module.ascend fsys name fuel wdir =
      first_existing fsys ((ancestors fuel wdir).flatMap (node_candidates name)) := by
  induction fuel generalizing wdir with
  | zero => omega
  | succ n ih =>
    have hcont : (if wdir.parent_path.empty = true then Found.no_return
        else find_module.ascend fsys name n wdir.parent_path) =
        first_existing fsys ((if wdir.parent_path.empty = true then []
            else ancestors n wdir.parent_path).flatMap (node_candidates name)) := by
      by_cases hp : wdir.parent_path.empty = true
      · simp [hp, first_existing]
      · rw [if_neg hp, if_neg hp]
        have hp2 := hp
        rw [Bool.not_eq_true] at hp2
        have hlt := wdir.parent_path_length_lt (wdir.ne_nil_of_parent_not_empty hp2)
        refine ih _ (by omega) ?_
        intro d hd
        exact hdir d (by unfold ancestors; rw [if_neg hp]; exact List.mem_cons_of_mem _ hd)
    obtain ⟨h1, h2⟩ := hdir wdir (by unfold ancestors; exact List.mem_cons_self _ _)
    unfold find_module.ascend
    unfold ancestors
    simp only [List.flatMap_cons, node_candidates, List.cons_append, List.nil_append,
      first_existing]
    cases hd : fsys.is_directory (wdir.div node_modules) with
    | none =>
      rw [h1 hd]
    | some b =>
      cases b with
      | false =>
        have e1 := h2 hd (((wdir.div node_modules).div name).concat dot_js)
          (by simp [node_candidates])
        have e2 := h2 hd (((wdir.div node_modules).div name).div index_js)
          (by simp [node_candidates])
        rw [e1, e2]
        exact hcont
      | true =>
        simp only
        cases e1 : fsys.exists_ (((wdir.div node_modules).div name).concat dot_js) with
        | none => rfl
        | some b1 =>
          cases b1 with
          | true => rfl
          | false =>
            simp only
            cases e2 : fsys.exists_ (((wdir.div node_modules).div name).div index_js) with
            | none => rfl
            | some b2 =>
              cases b2 with
              | true => rfl
              | false => exact hcont

/-- C5 as amended: called for a name that does not exist itself (the guard of
line 151), on a file system where nothing exists below a name that does not
exist or below a `node_modules` that is not a directory (and where, when the
status of `node_modules` cannot be read, that of its first candidate cannot
either), `find_module` probes the candidates
`d/node_modules/<name>.js`, `d/node_modules/<name>/index.js` for `d` the
working directory, its parent, and so on, in that order. It returns the
first one that exists, returns nothing when none does, and throws when a
probe before the first existing candidate throws. The directories start at
the working directory, each next one is the parent of the one before, and
the last one has an empty parent: for an absolute working directory it is the
root. -/
theorem find_module_search_order (fsys : FileSystem) (wdir name : path)
    (hcwd : fsys.current_path = some wdir)
    (hguard : fsys.exists_ name = some false)
    (hbelow : fsys.exists_ name = some false →
      fsys.exists_ (name.append dot_js) = some false)
    (hdir : ∀ d ∈ ancestors (wdir.pathname.length + 1) wdir,
      (fsys.is_directory (d.div node_modules) = none →
        fsys.exists_ (((d.div node_modules).div name).concat dot_js) = none) ∧
      (fsys.is_directory (d.div node_modules) = some false →
        ∀ c ∈ node_candidates name d, fsys.exists_ c = some false)) :
    find_module fsys name = first_existing fsys (search_order wdir name) ∧
    (ancestors (wdir.pathname.length + 1) wdir).head? = some wdir ∧
    List.Chain' (fun d d1 => d1 = d.parent_path)
      (ancestors (wdir.pathname.length + 1) wdir) ∧
    ∀ r, (ancestors (wdir.pathname.length + 1) wdir).getLast? = some r →
      r.parent_path.empty = true ∧
        (path.plain_absolute wdir.pathname = true →
          r.has_root_directory = true ∧ r.names = []) := by
  refine ⟨?_, rfl, ancestors_chain _ _, ?_⟩
  · unfold find_module search_order
    simp only [hbelow hguard, hcwd]
    exact ascend_eq_first fsys name _ _ (Nat.lt_succ_self _) hdir
  · intro r hr
    obtain ⟨h1, h2⟩ := ancestors_last _ _ r (Nat.lt_succ_self _) hr
    exact ⟨h1, fun habs =>
      ⟨r.plain_has_root_directory (h2 habs), r.plain_root (h2 habs) h1⟩⟩

/-- C5 as amended, at a concrete call: working directory `/x/y`,
`require("foo")`, the package found in the root's `node_modules`. -/
theorem find_module_search_order_example :
    search_order (path.ofString "/x/y") (path.ofString "foo") =
      [path.ofString "/x/y/node_modules/foo.js",
       path.ofString "/x/y/node_modules/foo/index.js",
       path.ofString "/x/node_modules/foo.js",
       path.ofString "/x/node_modules/foo/index.js",
       path.ofString "/node_modules/foo.js",
       path.ofString "/node_modules/foo/index.js"] ∧
    find_module fsRootPackage (path.ofString "foo")
      = .returned (path.ofString "/node_modules/foo/index.js") :=
  have h := find_module_search_order fsRootPackage (path.ofString "/x/y")
    (path.ofString "foo") rfl (by decide) (fun _ => by decide) (by decide)
  ⟨by decide, h.1.trans (by decide)⟩

set_option maxRecDepth 100000 in
/-- C5, refuted as stated: with working directory `/x/y`, a name of 254
characters that does not exist in the working directory, and the package
file `/x/y/node_modules/<name>/index.js` present, `find_module` does not
return that candidate, the first one that exists: the probe of the candidate
before it, `/x/y/node_modules/<name>.js`, has a file name longer than
`NAME_MAX`, `exists` throws, and the exception leaves `find_module`. -/
theorem find_module_probe_throws :
    fsLongName.exists_ longName = some false ∧
    fsLongName.exists_ (longName.concat dot_js) ≠ some true ∧
    (search_order (path.ofString "/x/y") longName).find?
        (fun c => fsLongName.exists_ c == some true)
      = some (((path.ofString "/x/y/node_modules").div longName).div index_js) ∧
    fsLongName.exists_ (((path.ofString "/x/y/node_modules").div longName).concat dot_js)
      = none ∧
    find_module fsLongName longName = .threw ∧
    (RequireCallback fsLongName exampleModules 1 topLevel
        [String.mk longName.pathname]).1 = .filesystem_error := by
  decide

/-! ## Theorems: `RequireCallback` -/

section require

variable {Module Value : Type}

theorem relative_stack (fsys : FileSystem) (stack : List path) (p : path) :
    (RequireCallback.relative fsys stack p).2.length = stack.length ∧
    (RequireCallback.relative fsys stack p).2.tail = stack.tail := by
  unfold RequireCallback.relative
  cases stack with
  | nil => simp
  | cons top rest =>
    simp only
    repeat' split
    all_goals simp

/-- When every candidate the relative branch tries is probed without error
and does not exist, the specifier is kept as given. -/
theorem relative_not_found (fsys : FileSystem) (stack : List path) (p : path)
    (h : ∀ top rest, stack = top :: rest → p.is_relative = true →
      ∀ c ∈ tried_candidates top p, fsys.exists_ c = some false) :
    (RequireCallback.relative fsys stack p).1 = some p := by
  cases stack with
  | nil => rfl
  | cons top rest =>
    by_cases hrel : p.is_relative = true
    · have h1 := h top rest rfl hrel (top.remove_filename.div p) (by simp [tried_candidates])
      have h2 := h top rest rfl hrel ((top.remove_filename.div p).concat dot_js)
        (by simp [tried_candidates])
      have h3 := h top rest rfl hrel
        ((top.remove_filename.remove_filename.div p).div index_js) (by simp [tried_candidates])
      unfold RequireCallback.relative
      simp only [hrel, if_true, h1, h2, h3]
    · unfold RequireCallback.relative
      simp only [hrel, if_false]
      simp

theorem body_file_not_found (fsys : FileSystem) (E : ModuleEngine Module Value)
    (nested : Option (RequireState → List String → RequireExit Value × RequireState))
    (st : RequireState) (arg : String)
    (hrel : (RequireCallback.relative fsys st.stackpath (path.ofString arg)).1
      = some (path.ofString arg))
    (hbare : RequireCallback.is_bare fsys (path.ofString arg) = some false)
    (hopen : fsys.ifstream (path.ofString arg) = .cannot_open) :
    RequireCallback.body fsys E nested st [arg] =
      (.file_not_found,
        { stackpath := (RequireCallback.relative fsys st.stackpath (path.ofString arg)).2
          opened := st.opened ++ [path.ofString arg]
          compiled := st.compiled }) := by
  unfold RequireCallback.body
  split
  · rename_i arg0 harg
    cases harg
    split
    · rename_i stack1 hr
      rw [hr] at hrel
      exact Option.noConfusion hrel
    · rename_i path1 stack1 hr
      rw [hr] at hrel
      simp only [Option.some.injEq] at hrel
      subst hrel
      have hstack : stack1
          = (RequireCallback.relative fsys st.stackpath (path.ofString arg)).2 := by
        rw [hr]
      subst hstack
      simp only [hbare, hopen, Bool.false_eq_true, if_false]
  · rename_i hne
    exact absurd rfl (hne arg)

theorem RequireCallback_eq_body (fsys : FileSystem) (E : ModuleEngine Module Value)
    (depth : Nat) :
    ∃ nested, RequireCallback fsys E depth = RequireCallback.body fsys E nested := by
  cases depth with
  | zero => exact ⟨none, rfl⟩
  | succ n => exact ⟨some (RequireCallback fsys E n), rfl⟩

theorem runBehaviour_stack
    (req : RequireState → List String → RequireExit Value × RequireState)
    (hreq : ∀ st args, (req st args).2.stackpath.length = st.stackpath.length ∧
      (req st args).2.stackpath.tail = st.stackpath.tail)
    (b : Behaviour Value) (st : RequireState) :
    (runBehaviour req b st).2.stackpath.length = st.stackpath.length ∧
    (runBehaviour req b st).2.stackpath.tail = st.stackpath.tail := by
  induction b generalizing st with
  | finish result exports => exact ⟨rfl, rfl⟩
  | require args k ih =>
    unfold runBehaviour
    have h1 := hreq st args
    split
    · rename_i st1 heq
      rw [heq] at h1
      exact h1
    · rename_i st1 heq
      rw [heq] at h1
      exact h1
    · rename_i r st1 _ _ heq
      rw [heq] at h1
      have h2 := ih r st1
      exact ⟨h2.1.trans h1.1, h2.2.trans h1.2⟩

theorem body_stack (fsys : FileSystem) (E : ModuleEngine Module Value)
    (nested : Option (RequireState → List String → RequireExit Value × RequireState))
    (hnested : ∀ req, nested = some req →
      ∀ st args, (req st args).2.stackpath.length = st.stackpath.length ∧
        (req st args).2.stackpath.tail = st.stackpath.tail)
    (st : RequireState) (args : List String) :
    (RequireCallback.body fsys E nested st args).2.stackpath.length = st.stackpath.length ∧
    (RequireCallback.body fsys E nested st args).2.stackpath.tail = st.stackpath.tail := by
  unfold RequireCallback.body
  split
  · rename_i arg
    have hs := relative_stack fsys st.stackpath (path.ofString arg)
    split
    · rename_i stack1 hr
      rw [hr] at hs
      exact hs
    · rename_i path1 stack1 hr
      rw [hr] at hs
      simp only at hs ⊢
      split
      · exact hs
      · split
        · exact hs
        · exact hs
        · exact hs
        · split
          · exact hs
          · exact hs
          · exact hs
          · split
            · exact hs
            · split
              · exact hs
              · split
                · exact hs
                · split
                  · exact hs
                  · rename_i req
                    have hkeep : ∀ (b : Behaviour Value) (st0 : RequireState) (p2 : path),
                        st0.stackpath = StackPopper.ctor stack1 p2 →
                        (StackPopper.dtor (runBehaviour req b st0).2.stackpath).length
                            = st.stackpath.length ∧
                          (StackPopper.dtor (runBehaviour req b st0).2.stackpath).tail
                            = st.stackpath.tail := by
                      intro b st0 p2 h0
                      have hb := runBehaviour_stack req (hnested req rfl) b st0
                      unfold StackPopper.dtor
                      rw [hb.2, h0]
                      exact hs
                    split <;> exact hkeep _ _ _ rfl
  · exact ⟨rfl, rfl⟩

/-- C7 as amended: when every candidate the relative branch tries is probed
without error and does not exist, the probe of line 151 does not throw and
does not hand the specifier to `find_module`, and the specifier as given
cannot be opened, `require` throws "File not found", the very diagnostic of
a failed read; it compiles no module, returns no value and leaves the load
stack at its depth. And the ascent of `find_module` ends for every file
system and name. -/
theorem require_without_candidate (fsys : FileSystem) (E : ModuleEngine Module Value)
    (depth : Nat) (st : RequireState) (arg : String)
    (hrel : ∀ top rest, st.stackpath = top :: rest → (path.ofString arg).is_relative = true →
      ∀ c ∈ tried_candidates top (path.ofString arg), fsys.exists_ c = some false)
    (hbare : RequireCallback.is_bare fsys (path.ofString arg) = some false)
    (hopen : fsys.ifstream (path.ofString arg) = .cannot_open) :
    (RequireCallback fsys E depth st [arg]).1 = .file_not_found ∧
    (RequireCallback fsys E depth st [arg]).1.thrown = some "File not found" ∧
    (RequireCallback fsys E depth st [arg]).1.thrown
      = (RequireExit.read_failed : RequireExit Value).thrown ∧
    (RequireCallback fsys E depth st [arg]).1.returnValue = none ∧
    (RequireCallback fsys E depth st [arg]).2.compiled = st.compiled ∧
    (RequireCallback fsys E depth st [arg]).2.opened = st.opened ++ [path.ofString arg] ∧
    (RequireCallback fsys E depth st [arg]).2.stackpath.length = st.stackpath.length ∧
    ∀ (fsys1 : FileSystem) (name : path), find_module fsys1 name ≠ .out_of_fuel := by
  obtain ⟨nested, hn⟩ := RequireCallback_eq_body fsys E depth
  have hp := relative_not_found fsys st.stackpath (path.ofString arg) hrel
  have hb := body_file_not_found fsys E nested st arg hp hbare hopen
  rw [hn, hb]
  exact ⟨rfl, rfl, rfl, rfl, rfl, rfl,
    (relative_stack fsys st.stackpath (path.ofString arg)).1, find_module_ne_out_of_fuel⟩

end require

/-! ### `require` at concrete calls -/

/-- C7 as amended, at a concrete call: while `/a/dir/a.js` is loading,
`require("./missing")` with nothing of that name anywhere. -/
theorem require_without_candidate_example :
    (tried_candidates (path.ofString "/a/dir/a.js") (path.ofString "./missing")).all
      (fun c => fsSiblings.exists_ c == some false) = true ∧
    (RequireCallback fsSiblings exampleModules 1 loadingA ["./missing"]).1
      = .file_not_found ∧
    (RequireCallback fsSiblings exampleModules 1 loadingA ["./missing"]).2.compiled = [] ∧
    (RequireCallback fsSiblings exampleModules 1 loadingA ["./missing"]).2.opened
      = [path.ofString "./missing"] ∧
    (RequireCallback fsSiblings exampleModules 1 loadingA ["./missing"]).2.stackpath.length
      = 1 :=
  have h := require_without_candidate fsSiblings exampleModules 1 loadingA "./missing"
    (by
      intro top rest hst _
      have htop : top = path.ofString "/a/dir/a.js" := by
        have := List.head_eq_of_cons_eq hst
        exact this.symm
      subst htop
      decide)
    (by decide) (by decide)
  ⟨by decide, h.1, h.2.2.2.2.1, h.2.2.2.2.2.1, h.2.2.2.2.2.2.1⟩

/-- C7, refuted as stated, at two calls. In a file system without any file,
with the load stack empty, `require("./missing")` has no candidate at all,
and what it throws is "File not found", the diagnostic of lines 160 and 170
for a file that cannot be read, not a diagnostic of its own. And while
`/a/dir/a.js` is loading, with `m.js` in the working directory `/srv` and
none of the listed candidates present, `require("./m.js")` does not fail: it
opens the specifier as given and loads `/srv/m.js`. -/
theorem module_not_found_is_file_not_found :
    fsEmpty.exists_ (path.ofString "./missing") = some false ∧
    fsEmpty.exists_ (path.ofString "./missing.js") = some false ∧
    (search_order (path.ofString "/srv") (path.ofString "./missing")).all
      (fun c => fsEmpty.exists_ c == some false) = true ∧
    (RequireCallback fsEmpty exampleModules 1 topLevel ["./missing"]).1.thrown
      = some "File not found" ∧
    (RequireCallback fsEmpty exampleModules 1 topLevel ["./missing"]).1.thrown
      = (RequireExit.read_failed : RequireExit Nat).thrown ∧
    (documented_candidates (path.ofString "/a/dir/a.js") (path.ofString "./m.js")).all
      (fun c => fsScriptInCwd.exists_ c == some false) = true ∧
    (tried_candidates (path.ofString "/a/dir/a.js") (path.ofString "./m.js")).all
      (fun c => fsScriptInCwd.exists_ c == some false) = true ∧
    fsScriptInCwd.exists_ (path.ofString "./m.js.js") = some false ∧
    (search_order (path.ofString "/srv") (path.ofString "./m.js")).all
      (fun c => fsScriptInCwd.exists_ c == some false) = true ∧
    (RequireCallback fsScriptInCwd exampleModules 1 loadingA ["./m.js"]).1
      = .evaluated (some 1) ∧
    (RequireCallback fsScriptInCwd exampleModules 1 loadingA ["./m.js"]).2.opened
      = [path.ofString "./m.js"] := by
  decide

/-- C3 at a failing input: while `/a/dir/a.js` is loading, `require("./b")`
with `/a/b/index.js` present and nothing named `b` in `/a/dir` loads
`/a/b/index.js`. The third candidate is taken one directory above the first
two, because the second `remove_filename()` acts on the stack entry that the
first one has already cut. With `/a/dir/b.js` present the second candidate
`/a/dir/./b.js` is loaded. -/
theorem index_candidate_leaves_directory :
    tried_candidates (path.ofString "/a/dir/a.js") (path.ofString "./b")
      = [path.ofString "/a/dir/./b", path.ofString "/a/dir/./b.js",
          path.ofString "/a/./b/index.js"] ∧
    documented_candidates (path.ofString "/a/dir/a.js") (path.ofString "./b")
      = [path.ofString "/a/dir/./b", path.ofString "/a/dir/./b.js",
          path.ofString "/a/dir/./b/index.js"] ∧
    (documented_candidates (path.ofString "/a/dir/a.js") (path.ofString "./b")).all
      (fun c => fsUncle.exists_ c == some false) = true ∧
    (RequireCallback fsUncle exampleModules 1 loadingA ["./b"]).1 = .evaluated (some 2) ∧
    (RequireCallback fsUncle exampleModules 1 loadingA ["./b"]).2.opened
      = [path.ofString "/a/./b/index.js"] ∧
    (RequireCallback fsSiblings exampleModules 1 loadingA ["./b"]).2.opened
      = [path.ofString "/a/dir/./b.js"] := by
  decide

/-- C4 at a failing input: while `/a/dir/a.js` is loading, a
`require("./missing")` that fails leaves the stack one entry deep, but the
entry is `/a`, no longer `/a/dir/a.js`; the sibling `require("./b")` that
follows does not find `/a/dir/b.js`, which exists, and opens `./b` in the
working directory. The same happens when `a.js` is loaded by `require` and
makes the two calls itself. -/
theorem failed_require_rewrites_stack_top :
    (RequireCallback fsSiblings exampleModules 1 loadingA ["./missing"]).1
      = .file_not_found ∧
    (RequireCallback fsSiblings exampleModules 1 loadingA ["./missing"]).2.stackpath
      = [path.ofString "/a"] ∧
    fsSiblings.exists_ (path.ofString "/a/dir/b.js") = some true ∧
    (RequireCallback fsSiblings exampleModules 1
        (RequireCallback fsSiblings exampleModules 1 loadingA ["./missing"]).2 ["./b"]).1
      = .file_not_found ∧
    (RequireCallback fsSiblings exampleModules 1
        (RequireCallback fsSiblings exampleModules 1 loadingA ["./missing"]).2 ["./b"]).2.opened
      = [path.ofString "./missing", path.ofString "./b"] ∧
    (RequireCallback fsSiblings exampleModules 2 topLevel ["/a/dir/a.js"]).2.opened
      = [path.ofString "/a/dir/a.js", path.ofString "./missing", path.ofString "./b"] := by
  decide

/-- C6 at a failing input: with working directory `/x/y`, the file
`/x/y/foo.js` present and the load stack empty, `find_module("foo")` probes
`foo/.js` (`append` puts a separator before the suffix), finds no package
directory and reaches its closing brace; `foo.js` is never opened. -/
theorem find_module_skips_local_file :
    (path.ofString "foo").append dot_js = path.ofString "foo/.js" ∧
    fsLocalOnly.exists_ (path.ofString "foo.js") = some true ∧
    fsLocalOnly.exists_ (path.ofString "foo") = some false ∧
    RequireCallback.is_bare fsLocalOnly (path.ofString "foo") = some true ∧
    find_module fsLocalOnly (path.ofString "foo") = .no_return ∧
    (RequireCallback fsLocalOnly exampleModules 1 topLevel ["foo"]).1
      = .undefined_behaviour ∧
    (RequireCallback fsLocalOnly exampleModules 1 topLevel ["foo"]).2.opened = [] := by
  decide

/-! ### Two further properties of the code -/

/-- Stack discipline of `require`: on every exit, at every depth of nested
loads, `RequireCallback` returns with the load stack as deep as it found it
and with all entries below the top as they were. -/
theorem require_keeps_stack_depth {Module Value : Type} (fsys : FileSystem)
    (E : ModuleEngine Module Value) (depth : Nat) (st : RequireState) (args : List String) :
    (RequireCallback fsys E depth st args).2.stackpath.length = st.stackpath.length ∧
    (RequireCallback fsys E depth st args).2.stackpath.tail = st.stackpath.tail := by
  induction depth generalizing st args with
  | zero => exact body_stack fsys E none (fun _ h => Option.noConfusion h) st args
  | succ n ih =>
    refine body_stack fsys E (some (RequireCallback fsys E n)) ?_ st args
    intro req hreq
    cases hreq
    exact ih

/-- Termination of the ascent: for every file system, working directory and
name, the loop of `find_module` stops within one step per character of the
working directory, at a `return`, at the closing brace or with an exception
thrown. -/
theorem find_module_ascent_terminates (fsys : FileSystem) (name : path) :
    find_module fsys name ≠ .out_of_fuel ∧
    ∀ (fuel : Nat) (wdir : path), wdir.pathname.length < fuel →
      find_module.ascend fsys name fuel wdir ≠ .out_of_fuel := by
  refine ⟨?_, fun fuel wdir h => ascend_ne_out_of_fuel fsys name fuel wdir h⟩
  unfold find_module
  simp only
  split
  · simp
  · simp
  · split
    · simp
    · exact ascend_ne_out_of_fuel fsys name _ _ (Nat.lt_succ_self _)

end ModJS
